import Mathlib

/-!
Verification of the ArgRankLab ranking-semantics library.

The Python sources are shallowly embedded below.  Arguments are modelled as
natural numbers (the sources use decimal-string identifiers; only identity and
a fixed enumeration order are ever observable in the properties verified here).
Floating-point arithmetic of the sources is modelled by exact rationals (the
iterations involved stay well inside the representable range), and `math.log`
on probabilities by `Real.log` with `-inf` as the bottom element of `EReal`.
-/

/-- An argumentation framework as built by `util/af_parser.parse_af_file`:
a node list plus a directed attack-edge list (`networkx.DiGraph`). -/
structure AF where
  args : List Nat
  atts : List (Nat × Nat)
deriving DecidableEq

/-- Attack relation: `a` attacks `b` iff the edge `(a, b)` is present. -/
def AF.attacks (af : AF) (a b : Nat) : Prop := (a, b) ∈ af.atts

instance (af : AF) (a b : Nat) : Decidable (af.attacks a b) := by
  unfold AF.attacks; infer_instance

/-- The nodes of the framework as a finite set. -/
def AF.argsF (af : AF) : Finset Nat := af.args.toFinset

/-- Well-formedness of a `networkx.DiGraph`: nodes are pairwise distinct,
edges are pairwise distinct, and every edge endpoint is a node. -/
def AF.WF (af : AF) : Prop :=
  af.args.Nodup ∧ af.atts.Nodup ∧ ∀ e ∈ af.atts, e.1 ∈ af.args ∧ e.2 ∈ af.args

instance (af : AF) : Decidable af.WF := by unfold AF.WF; infer_instance

/-- The attackers of `a` (`graph.predecessors(a)`), in node-list order (as
used by the vectorised Cat update). -/
def AF.attackersL (af : AF) (a : Nat) : List Nat :=
  af.args.filter (fun b => decide (af.attacks b a))

theorem AF.attackersL_subset (af : AF) (a : Nat) :
    ∀ b ∈ af.attackersL a, b ∈ af.args := by
  intro b hb
  exact (List.mem_filter.mp hb).1

theorem AF.mem_attackersL (af : AF) (a b : Nat) :
    b ∈ af.attackersL a ↔ b ∈ af.args ∧ af.attacks b a := by
  unfold AF.attackersL
  simp [List.mem_filter]

/-! ## Cat — categoriser semantics (`semantics/cat.py`) -/

/-- Default convergence tolerance of `Cat.__init__` (`1e-8`). -/
def catTol : ℚ := 1 / 10 ^ 8

/-- Default iteration cap of `Cat.__init__` (`1000`). -/
def catMaxIter : Nat := 1000

/-- One vectorised update of `Cat._calculate_strengths`:
`strengths = 1 / (1 + adj_T @ old_strengths)`. -/
def catStep (af : AF) (s : Nat → ℚ) : Nat → ℚ :=
  fun a => 1 / (1 + ((af.attackersL a).map s).sum)

/-- The infinity norm `np.linalg.norm(new - old, ord=np.inf)`: the largest absolute
componentwise difference over the argument vector. -/
def catMaxDiff (af : AF) (s t : Nat → ℚ) : ℚ :=
  (af.args.map (fun a => |s a - t a|)).foldr max 0

/-- The convergence loop of `Cat._calculate_strengths`: up to `fuel` updates,
stopping early once the infinity-norm change drops below the tolerance. -/
def catLoop (af : AF) : Nat → (Nat → ℚ) → (Nat → ℚ)
  | 0, s => s
  | fuel + 1, s =>
    if catMaxDiff af (catStep af s) s < catTol then catStep af s
    else catLoop af fuel (catStep af s)

theorem catLoop_succ (af : AF) (n : Nat) (s : Nat → ℚ) :
    catLoop af (n + 1) s =
      if catMaxDiff af (catStep af s) s < catTol then catStep af s
      else catLoop af n (catStep af s) := rfl

/-- The strength vector `Cat` computes under the default parameters:
start from the zero vector and run the convergence loop.  (For an empty
framework the source returns an empty dictionary; no argument exists to
observe the difference.) -/
def catStrengths (af : AF) : Nat → ℚ :=
  catLoop af catMaxIter (fun _ => 0)

theorem foldr_max_ge {l : List ℚ} {x : ℚ} (hx : x ∈ l) : x ≤ l.foldr max 0 := by
  induction l with
  | nil => cases hx
  | cons a rest ih =>
    rcases List.mem_cons.mp hx with h | h
    · subst h; exact le_max_left _ _
    · exact le_trans (ih h) (le_max_right _ _)

theorem catStep_bounds (af : AF) (s : Nat → ℚ)
    (hpos : ∀ b ∈ af.args, 0 ≤ s b) :
    ∀ a ∈ af.args, 0 < catStep af s a ∧ catStep af s a ≤ 1 := by
  intro a _
  have hsum : 0 ≤ ((af.attackersL a).map s).sum := by
    apply List.sum_nonneg
    intro x hx
    rcases List.mem_map.mp hx with ⟨b, hb, rfl⟩
    exact hpos b (af.attackersL_subset a b hb)
  have hden : (0:ℚ) < 1 + ((af.attackersL a).map s).sum := by linarith
  unfold catStep
  constructor
  · exact div_pos one_pos hden
  · rw [div_le_one hden]; linarith

theorem catStep_eq_one_iff (af : AF) (s : Nat → ℚ)
    (hpos : ∀ b ∈ af.args, 0 < s b) :
    ∀ a ∈ af.args, (catStep af s a = 1 ↔ af.attackersL a = []) := by
  intro a _
  have hsum : 0 ≤ ((af.attackersL a).map s).sum := by
    apply List.sum_nonneg
    intro x hx
    rcases List.mem_map.mp hx with ⟨b, hb, rfl⟩
    exact le_of_lt (hpos b (af.attackersL_subset a b hb))
  have hden : (0:ℚ) < 1 + ((af.attackersL a).map s).sum := by linarith
  unfold catStep
  constructor
  · intro h
    have hz : ((af.attackersL a).map s).sum = 0 := by
      field_simp at h
      linarith
    by_contra hne
    rcases List.exists_mem_of_ne_nil _ hne with ⟨b, hb⟩
    have : 0 < ((af.attackersL a).map s).sum := by
      apply List.sum_pos
      · intro x hx
        rcases List.mem_map.mp hx with ⟨c, hc, rfl⟩
        exact hpos c (af.attackersL_subset a c hc)
      · simp only [ne_eq, List.map_eq_nil_iff]
        exact hne
    linarith
  · intro h
    rw [h]
    norm_num

/-- The invariant carried through the loop: strengths lie in `(0, 1]` and
equal `1` exactly on unattacked arguments. -/
def catGood (af : AF) (s : Nat → ℚ) : Prop :=
  ∀ a ∈ af.args, (0 < s a ∧ s a ≤ 1) ∧ (s a = 1 ↔ af.attackersL a = [])

theorem catStep_good (af : AF) (s : Nat → ℚ)
    (hpos : ∀ b ∈ af.args, 0 < s b ∧ s b ≤ 1) : catGood af (catStep af s) := by
  intro a ha
  refine ⟨catStep_bounds af s (fun b hb => le_of_lt (hpos b hb).1) a ha, ?_⟩
  exact catStep_eq_one_iff af s (fun b hb => (hpos b hb).1) a ha

theorem catLoop_good (af : AF) (fuel : Nat) (s : Nat → ℚ)
    (h : catGood af s) : catGood af (catLoop af fuel s) := by
  induction fuel generalizing s with
  | zero => exact h
  | succ n ih =>
    have hstep : catGood af (catStep af s) :=
      catStep_good af s (fun b hb => (h b hb).1)
    rw [catLoop_succ]
    split
    · exact hstep
    · exact ih _ hstep

theorem catLoop_good_of_bounds (af : AF) (fuel : Nat) (s : Nat → ℚ)
    (hf : 1 ≤ fuel) (h : ∀ b ∈ af.args, 0 < s b ∧ s b ≤ 1) :
    catGood af (catLoop af fuel s) := by
  obtain ⟨n, rfl⟩ := Nat.exists_eq_add_of_le hf
  rw [Nat.add_comm, catLoop_succ]
  have hstep : catGood af (catStep af s) := catStep_good af s h
  split
  · exact hstep
  · exact catLoop_good af n _ hstep

/-- Claim C4 — for every well-formed AF, under the default parameters the
strengths computed by `Cat._calculate_strengths` satisfy
`0 < strength(a) ≤ 1`, with `strength(a) = 1` exactly when `a` has no
attackers. -/
theorem cat_strengths_range (af : AF) (hwf : af.WF) :
    ∀ a ∈ af.args,
      (0 < catStrengths af a ∧ catStrengths af a ≤ 1) ∧
      (catStrengths af a = 1 ↔ af.attackersL a = []) := by
  intro a ha
  have hne : af.args ≠ [] := by
    intro h; rw [h] at ha; cases ha
  -- the first update takes the zero vector to the all-ones vector
  have hstep0 : ∀ b, catStep af (fun _ => 0) b = 1 := by
    intro b
    unfold catStep
    have : ((af.attackersL b).map (fun _ => (0:ℚ))).sum = 0 := by
      simp
    rw [this]
    norm_num
  -- hence the first convergence test fails (the change is ≥ 1 > tolerance)
  have hdiff : ¬ catMaxDiff af (catStep af (fun _ => 0)) (fun _ => 0) < catTol := by
    have hmem : |catStep af (fun _ => 0) a - 0| ∈
        af.args.map (fun b => |catStep af (fun _ => 0) b - (0:ℚ)|) :=
      List.mem_map_of_mem _ ha
    have hge : (1:ℚ) ≤ catMaxDiff af (catStep af (fun _ => 0)) (fun _ => 0) := by
      have := foldr_max_ge hmem
      rw [hstep0 a] at this
      simpa [catMaxDiff] using this
    intro hlt
    unfold catTol at hlt
    linarith
  have hcm : catMaxIter = 999 + 1 := by norm_num [catMaxIter]
  have hgood : catGood af (catLoop af 999 (catStep af (fun _ => 0))) := by
    apply catLoop_good_of_bounds
    · omega
    · intro b _
      rw [hstep0 b]
      norm_num
  unfold catStrengths
  rw [hcm, catLoop_succ, if_neg hdiff]
  exact hgood a ha

/-- Witness for `cat_strengths_range` on the two-argument chain `1 → 2`. -/
theorem cat_strengths_range_witness :
    (AF.mk [1, 2] [(1, 2)]).WF ∧ (2 ∈ (AF.mk [1, 2] [(1, 2)]).args) ∧
      ((0 < catStrengths (AF.mk [1, 2] [(1, 2)]) 2 ∧
        catStrengths (AF.mk [1, 2] [(1, 2)]) 2 ≤ 1) ∧
       (catStrengths (AF.mk [1, 2] [(1, 2)]) 2 = 1 ↔
        (AF.mk [1, 2] [(1, 2)]).attackersL 2 = [])) :=
  ⟨by decide, by decide,
    cat_strengths_range (AF.mk [1, 2] [(1, 2)]) (by decide) 2 (by decide)⟩

/-! ## Dbs — discussion-based semantics (`semantics/dbs.py`) -/

/-- A square natural-number matrix, as produced by `nx.to_numpy_array`
(path counts are non-negative integers). -/
def Mat (n : Nat) := Fin n → Fin n → Nat

/-- The adjacency matrix of the framework over its node list:
`M[i, j] = 1` iff the `i`-th argument attacks the `j`-th. -/
def adjMat (af : AF) : Mat af.args.length :=
  fun i j => if af.attacks (af.args.get i) (af.args.get j) then 1 else 0

/-- One step `m_power @ adj_matrix` of the repeated matrix product. -/
def matMul {n : Nat} (A B : Mat n) : Mat n :=
  fun i j => ∑ k, A i k * B k j

/-- The column sum `np.sum(m_power[:, arg_index])` counting attack paths of
the current length that end at the given argument. -/
def colSum {n : Nat} (A : Mat n) (j : Fin n) : Nat := ∑ i, A i j

/-- The loop body of `Dbs._calculate_discussion_vector`: starting from path
length `i` with current power `P`, emit `remaining` entries, positive for odd
lengths and negative for even lengths. -/
def dbsVecFrom {n : Nat} (A : Mat n) (j : Fin n) :
    Nat → Nat → Mat n → List ℤ
  | 0, _, _ => []
  | remaining + 1, i, P =>
    (if i % 2 = 1 then (colSum P j : ℤ) else -(colSum P j : ℤ)) ::
      dbsVecFrom A j remaining (i + 1) (matMul P A)

/-- Embedding of `Dbs._calculate_discussion_vector`: the length-`L` discussion vector of
the argument at position `j`. -/
def dbsVector (af : AF) (L : Nat) (j : Fin af.args.length) : List ℤ :=
  dbsVecFrom (adjMat af) j L 1 (adjMat af)

theorem dbsVecFrom_length {n : Nat} (A : Mat n) (j : Fin n) :
    ∀ remaining i P, (dbsVecFrom A j remaining i P).length = remaining := by
  intro remaining
  induction remaining with
  | zero => intro i P; rfl
  | succ m ih =>
    intro i P
    unfold dbsVecFrom
    simp [ih]

theorem dbsVector_length (af : AF) (L : Nat) (j : Fin af.args.length) :
    (dbsVector af L j).length = L :=
  dbsVecFrom_length (adjMat af) j L 1 (adjMat af)

theorem dbsVecFrom_sign {n : Nat} (A : Mat n) (j : Fin n) :
    ∀ remaining i P m (hm : m < (dbsVecFrom A j remaining i P).length),
      ((i + m) % 2 = 1 → 0 ≤ (dbsVecFrom A j remaining i P).get ⟨m, hm⟩) ∧
      ((i + m) % 2 = 0 → (dbsVecFrom A j remaining i P).get ⟨m, hm⟩ ≤ 0) := by
  intro remaining
  induction remaining with
  | zero =>
    intro i P m hm
    simp [dbsVecFrom] at hm
  | succ r ih =>
    intro i P m hm
    cases m with
    | zero =>
      constructor
      · intro hodd
        simp only [Nat.add_zero] at hodd
        simp [dbsVecFrom, hodd]
      · intro heven
        simp only [Nat.add_zero] at heven
        have : ¬ i % 2 = 1 := by omega
        simp [dbsVecFrom, this]
    | succ m0 =>
      have hm0 : m0 < (dbsVecFrom A j r (i + 1) (matMul P A)).length := by
        rw [dbsVecFrom_length]
        rw [dbsVecFrom_length] at hm
        omega
      have := ih (i + 1) (matMul P A) m0 hm0
      constructor
      · intro hodd
        have h1 : (i + 1 + m0) % 2 = 1 := by omega
        have h2 := this.1 h1
        simpa [dbsVecFrom] using h2
      · intro heven
        have h1 : (i + 1 + m0) % 2 = 0 := by omega
        have h2 := this.2 h1
        simpa [dbsVecFrom] using h2

/-- Claim C7 — every Dbs discussion-vector entry for path length `k`
(stored at position `k − 1`) is non-negative when `k` is odd and
non-positive when `k` is even. -/
theorem dbs_vector_signs (af : AF) (L : Nat) (j : Fin af.args.length)
    (k : Nat) (hk1 : 1 ≤ k) (hkL : k ≤ L) :
    (k % 2 = 1 → 0 ≤ (dbsVector af L j).getD (k - 1) 0) ∧
    (k % 2 = 0 → (dbsVector af L j).getD (k - 1) 0 ≤ 0) := by
  have hpos : k - 1 < (dbsVector af L j).length := by
    rw [dbsVector_length]
    omega
  have h := dbsVecFrom_sign (adjMat af) j L 1 (adjMat af) (k - 1) hpos
  have hk : 1 + (k - 1) = k := by omega
  rw [hk] at h
  have hgd : (dbsVector af L j).getD (k - 1) 0 =
      (dbsVector af L j).get ⟨k - 1, hpos⟩ := by
    rw [List.getD_eq_getElem (dbsVector af L j) 0 hpos]
    rfl
  rw [hgd]
  exact h

/-- Witness for `dbs_vector_signs` on the two-argument chain `1 → 2` with
`L = 3`, `k = 2`. -/
theorem dbs_vector_signs_witness :
    (1 ≤ 2 ∧ 2 ≤ 3) ∧
    (2 % 2 = 1 →
      0 ≤ (dbsVector (AF.mk [1, 2] [(1, 2)]) 3 ⟨1, by decide⟩).getD (2 - 1) 0) ∧
    (2 % 2 = 0 →
      (dbsVector (AF.mk [1, 2] [(1, 2)]) 3 ⟨1, by decide⟩).getD (2 - 1) 0 ≤ 0) :=
  ⟨⟨by decide, by decide⟩,
    (dbs_vector_signs (AF.mk [1, 2] [(1, 2)]) 3 ⟨1, by decide⟩ 2 (by decide)
      (by decide)).1,
    (dbs_vector_signs (AF.mk [1, 2] [(1, 2)]) 3 ⟨1, by decide⟩ 2 (by decide)
      (by decide)).2⟩

/-- The default of the `max_path_length` parameter in `Dbs.__init__`. -/
def dbsDefaultMaxPathLength : Nat := 10

/-- The discussion vector `Dbs` computes when no explicit
`max_path_length` is passed. -/
def dbsVectorDefault (af : AF) (j : Fin af.args.length) : List ℤ :=
  dbsVector af dbsDefaultMaxPathLength j

/-- The default of the `max_len` parameter of `util/af_parser.calculate_dbs`. -/
def calcDbsDefaultMaxLen : ℤ := 0

/-- The effective path-length bound of `util/af_parser.calculate_dbs`:
`if max_len <= 0: max_len = num_args`. -/
def calcDbsEffectiveMaxLen (maxLen : ℤ) (numArgs : Nat) : ℤ :=
  if maxLen ≤ 0 then (numArgs : ℤ) else maxLen

/-- Counterexample to claim C8 — on a three-argument framework the `Dbs`
class run with its default parameter produces vectors of length 10, not
`|A| = 3`: the class default is the constant 10, independent of the AF. -/
theorem dbs_default_not_num_args :
    (dbsVectorDefault (AF.mk [1, 2, 3] [(1, 2)]) ⟨0, by decide⟩).length = 10 ∧
    (AF.mk [1, 2, 3] [(1, 2)]).args.length = 3 ∧
    (dbsVectorDefault (AF.mk [1, 2, 3] [(1, 2)]) ⟨0, by decide⟩).length ≠
      (AF.mk [1, 2, 3] [(1, 2)]).args.length := by
  refine ⟨dbsVector_length _ _ _, by decide, ?_⟩
  unfold dbsVectorDefault
  rw [dbsVector_length]
  decide

/-- Claim C8 (amended) — the `Dbs` class defaults `max_path_length` to the
constant 10 for every AF, while the standalone `calculate_dbs` helper of
`util/af_parser.py` maps its default `max_len = 0` to `|A|`. -/
theorem dbs_default_max_path_length (af : AF) (j : Fin af.args.length)
    (n : Nat) :
    dbsDefaultMaxPathLength = 10 ∧
    (dbsVectorDefault af j).length = dbsDefaultMaxPathLength ∧
    calcDbsEffectiveMaxLen calcDbsDefaultMaxLen n = (n : ℤ) := by
  refine ⟨rfl, dbsVector_length _ _ _, ?_⟩
  unfold calcDbsEffectiveMaxLen calcDbsDefaultMaxLen
  norm_num

/-! ## The `.af` parser (`util/af_parser.parse_af_file`) -/

/-- Python `str.strip()` on the character list: drop leading and trailing
whitespace. -/
def pyStripChars (l : List Char) : List Char :=
  ((l.dropWhile Char.isWhitespace).reverse.dropWhile Char.isWhitespace).reverse

/-- Python `line.strip()`. -/
def pyStrip (s : String) : String := String.mk (pyStripChars s.data)

/-- Python `s.startswith(t)`. -/
def pyStarts (s t : String) : Prop := s.data.take t.data.length = t.data

instance (s t : String) : Decidable (pyStarts s t) := by
  unfold pyStarts; infer_instance

/-- Helper for `str.split()`: scan the characters, accumulating the current
word (reversed); whitespace runs separate words, empty words are dropped. -/
def pySplitAux : List Char → List Char → List String
  | [], acc => if acc = [] then [] else [String.mk acc.reverse]
  | c :: rest, acc =>
    if Char.isWhitespace c then
      if acc = [] then pySplitAux rest [] else String.mk acc.reverse :: pySplitAux rest []
    else pySplitAux rest (c :: acc)

/-- Python `line.split()` with no separator: split on whitespace runs. -/
def pySplit (s : String) : List String := pySplitAux s.data []

/-- Decimal digits of a token, as read by Python `int`. -/
def digitsToNat : List Char → Option Nat
  | [] => none
  | l =>
    if l.all Char.isDigit then
      some (l.foldl (fun acc c => acc * 10 + (c.toNat - '0'.toNat)) 0)
    else none

/-- Python `int(token)` on the token shapes the parser can meet: an optional
sign followed by decimal digits (`None` models the `ValueError` branch). -/
def pyToInt : String → Option ℤ := fun s =>
  match s.data with
  | '-' :: rest => (digitsToNat rest).map (fun n => -(n : ℤ))
  | '+' :: rest => (digitsToNat rest).map (fun n => (n : ℤ))
  | l => (digitsToNat l).map (fun n => (n : ℤ))

/-- The state of a `networkx.DiGraph` while parsing: node and edge lists in
insertion order. -/
structure PyGraph where
  nodes : List String
  edges : List (String × String)
deriving DecidableEq

/-- Embedding of `graph.add_node`: appends the node unless already present. -/
def addNode (g : PyGraph) (s : String) : PyGraph :=
  if s ∈ g.nodes then g else PyGraph.mk (g.nodes ++ [s]) g.edges

/-- Embedding of `graph.add_edge`: creates both endpoints if missing, then adds the edge
unless already present. -/
def addEdge (g : PyGraph) (a b : String) : PyGraph :=
  let g1 := addNode (addNode g a) b
  if (a, b) ∈ g1.edges then g1 else PyGraph.mk g1.nodes (g1.edges ++ [(a, b)])

/-- The warnings `parse_af_file` can print. -/
inductive ParseWarning where
  | badHeader : String → ParseWarning
  | malformedLine : String → ParseWarning
  | tooManyArgs : Nat → ℤ → ParseWarning
deriving DecidableEq

/-- The running state of `parse_af_file`: the graph, the declared argument
count, and the warnings printed so far. -/
structure ParseState where
  g : PyGraph
  declared : ℤ
  warns : List ParseWarning
deriving DecidableEq

/-- The declared node names `[str(i) for i in range(1, n + 1)]`. -/
def declaredNodes (n : ℤ) : List String :=
  (List.range n.toNat).map (fun k => Nat.repr (k + 1))

/-- Embedding of `graph.add_nodes_from`. -/
def addNodesFrom (g : PyGraph) (l : List String) : PyGraph := l.foldl addNode g

/-- One iteration of the line loop of `parse_af_file`. -/
def processLine (st : ParseState) (line0 : String) : ParseState :=
  let line := pyStrip line0
  if line = "" then st
  else if pyStarts line "#" then st
  else if pyStarts line "p af" then
    match (pySplit line).get? 2 with
    | none => ParseState.mk st.g st.declared (st.warns ++ [ParseWarning.badHeader line])
    | some tok =>
      match pyToInt tok with
      | none => ParseState.mk st.g st.declared (st.warns ++ [ParseWarning.badHeader line])
      | some n => ParseState.mk (addNodesFrom st.g (declaredNodes n)) n st.warns
  else
    match pySplit line with
    | [a, b] => ParseState.mk (addEdge st.g a b) st.declared st.warns
    | _ => ParseState.mk st.g st.declared (st.warns ++ [ParseWarning.malformedLine line])

/-- Embedding of `parse_af_file` on the list of lines of the file: fold the line loop,
then emit the final more-arguments-than-declared warning if applicable. -/
def parseAF (lines : List String) : PyGraph × List ParseWarning :=
  let st := lines.foldl processLine (ParseState.mk (PyGraph.mk [] []) 0 [])
  if 0 < st.declared ∧ st.declared < (st.g.nodes.length : ℤ) then
    (st.g, st.warns ++ [ParseWarning.tooManyArgs st.g.nodes.length st.declared])
  else (st.g, st.warns)

/-- Counterexample to claim C9 — on the file `p af 2` / `3 1`, whose attack
line names the undeclared argument `3`, the parser does not skip the line:
it adds node `3` and the edge `(3, 1)`, and the only warning is the single
post-parse more-arguments-than-declared warning. -/
theorem parser_adds_unknown_identifier :
    (parseAF ["p af 2", "3 1"]).1.nodes = ["1", "2", "3"] ∧
    ("3", "1") ∈ (parseAF ["p af 2", "3 1"]).1.edges ∧
    (parseAF ["p af 2", "3 1"]).2 = [ParseWarning.tooManyArgs 3 2] := by
  decide

theorem mem_addNode (g : PyGraph) (t s : String) :
    s ∈ (addNode g t).nodes ↔ s ∈ g.nodes ∨ s = t := by
  unfold addNode
  split
  · constructor
    · intro h; exact Or.inl h
    · rintro (h | rfl)
      · exact h
      · assumption
  · simp [List.mem_append]

theorem mem_addEdge (g : PyGraph) (a b s : String) :
    s ∈ (addEdge g a b).nodes ↔ s ∈ g.nodes ∨ s = a ∨ s = b := by
  unfold addEdge
  dsimp only
  have hn : (addNode (addNode g a) b).nodes =
      (if (a, b) ∈ (addNode (addNode g a) b).edges then addNode (addNode g a) b
       else PyGraph.mk (addNode (addNode g a) b).nodes
         ((addNode (addNode g a) b).edges ++ [(a, b)])).nodes := by
    split
    · rfl
    · rfl
  rw [← hn, mem_addNode, mem_addNode]
  tauto

theorem edge_mem_addEdge (g : PyGraph) (a b : String) :
    (a, b) ∈ (addEdge g a b).edges := by
  unfold addEdge
  dsimp only
  split
  · assumption
  · simp

/-- Claim C9 (amended) — a stripped attack line that is neither blank, nor a
comment, nor a header, and splits into two tokens `a b`, is never skipped and
never warned about: `add_edge` runs, making both identifiers nodes (declared
or not) and recording the attack; the declared count and warning list are
unchanged by the line. -/
theorem parser_attack_line_behaviour (st : ParseState) (line : String)
    (a b : String)
    (hne : pyStrip line ≠ "")
    (hcomment : ¬ pyStarts (pyStrip line) "#")
    (hheader : ¬ pyStarts (pyStrip line) "p af")
    (hsplit : pySplit (pyStrip line) = [a, b]) :
    processLine st line = ParseState.mk (addEdge st.g a b) st.declared st.warns ∧
    (∀ s, s ∈ (addEdge st.g a b).nodes ↔ s ∈ st.g.nodes ∨ s = a ∨ s = b) ∧
    (a, b) ∈ (addEdge st.g a b).edges := by
  refine ⟨?_, fun s => mem_addEdge st.g a b s, edge_mem_addEdge st.g a b⟩
  unfold processLine
  rw [if_neg hne, if_neg hcomment, if_neg hheader, hsplit]

/-- Witness for `parser_attack_line_behaviour` at the concrete state after
the header `p af 2` and the line `3 1`. -/
theorem parser_attack_line_behaviour_witness :
    processLine (ParseState.mk (PyGraph.mk ["1", "2"] []) 2 []) "3 1" =
      ParseState.mk (addEdge (PyGraph.mk ["1", "2"] []) "3" "1") 2 [] ∧
    (∀ s, s ∈ (addEdge (PyGraph.mk ["1", "2"] []) "3" "1").nodes ↔
      s ∈ (["1", "2"] : List String) ∨ s = "3" ∨ s = "1") ∧
    ("3", "1") ∈ (addEdge (PyGraph.mk ["1", "2"] []) "3" "1").edges :=
  parser_attack_line_behaviour (ParseState.mk (PyGraph.mk ["1", "2"] []) 2 [])
    "3 1" "3" "1" (by decide) (by decide) (by decide) (by decide)

/-! ## Probabilistic base (`semantics/prob/prob_base.py`) and the grounded
extension finder (`semantics/prob/prob_grounded.py`) -/

/-- The union `frozenset.union(*extensions)` (with the empty union for no extensions):
the credulously accepted arguments of a subgraph sample. -/
def listUnion (l : List (Finset Nat)) : Finset Nat := l.foldr (· ∪ ·) ∅

/-- Embedding of `self.af.subgraph(subgraph_nodes)`: the induced subgraph on the kept
nodes. -/
def subAF (af : AF) (keep : List Nat) : AF :=
  AF.mk (af.args.filter (fun a => decide (a ∈ keep)))
    (af.atts.filter (fun e => decide (e.1 ∈ keep) && decide (e.2 ∈ keep)))

/-- The induced subgraph on a finite node set (for the exact enumeration over
`Finset.powerset`). -/
def subAFMem (af : AF) (S : Finset Nat) : AF :=
  AF.mk (af.args.filter (fun a => decide (a ∈ S)))
    (af.atts.filter (fun e => decide (e.1 ∈ S) && decide (e.2 ∈ S)))

/-- The per-sample handling of `_calculate_scores`: an empty subgraph is
skipped (`if not subgraph.nodes: continue`), and so is an empty extension
list; both amount to an empty credulous-acceptance set. -/
def credOfSubgraph (finder : AF → List (Finset Nat)) (sub : AF) : Finset Nat :=
  if sub.args = [] then ∅ else listUnion (finder sub)

/-- The Bernoulli draw
`[node for node in self.all_nodes if random.random() < self.p]`, with the
stream of `random.random()` results supplied as `draws`. -/
def bernoulliNodes (af : AF) (p : ℚ) (draws : Nat → Nat → ℚ) (i : Nat) :
    List Nat :=
  af.args.filter (fun a => decide (draws i a < p))

/-- The flag `use_fixed_size_heuristic = len(self.all_nodes) > 30 and
self.__class__.__name__ != 'ProbGrounded'`. -/
def useFixedHeuristic (af : AF) (notGroundedClass : Bool) : Bool :=
  decide (30 < af.args.length) && notGroundedClass

/-- The node set of sample `i`: the fixed-size `random.sample` draw (an
opaque RNG operation, supplied as `heur`) when the heuristic fires, else the
Bernoulli draw. -/
def mcSampleNodes (af : AF) (p : ℚ) (draws : Nat → Nat → ℚ)
    (heur : Nat → List Nat) (notGroundedClass : Bool) (i : Nat) : List Nat :=
  if useFixedHeuristic af notGroundedClass then heur i
  else bernoulliNodes af p draws i

/-- The credulous-acceptance set of sample `i`. -/
def credOfSample (finder : AF → List (Finset Nat)) (af : AF) (p : ℚ)
    (draws : Nat → Nat → ℚ) (heur : Nat → List Nat) (notGroundedClass : Bool)
    (i : Nat) : Finset Nat :=
  credOfSubgraph finder (subAF af (mcSampleNodes af p draws heur notGroundedClass i))

/-- The `acceptance_counts` accumulation of `_calculate_scores`: one
increment per sample in which the argument is credulously accepted (guarded
by the `if arg in self.all_nodes` check). -/
def mcCounts (finder : AF → List (Finset Nat)) (af : AF) (p : ℚ)
    (draws : Nat → Nat → ℚ) (heur : Nat → List Nat) (notGroundedClass : Bool)
    (numSamples : Nat) : Nat → Nat :=
  (List.range numSamples).foldl
    (fun c i => fun a =>
      if a ∈ credOfSample finder af p draws heur notGroundedClass i ∧ a ∈ af.args
      then c a + 1 else c a)
    (fun _ => 0)

/-- The score map `self._scores = {node: acceptance_counts[node] / self.num_samples ...}`. -/
def probScores (finder : AF → List (Finset Nat)) (af : AF) (p : ℚ)
    (draws : Nat → Nat → ℚ) (heur : Nat → List Nat) (notGroundedClass : Bool)
    (numSamples : Nat) : Nat → ℚ :=
  fun node =>
    ((mcCounts finder af p draws heur notGroundedClass numSamples node : ℚ) /
      (numSamples : ℚ))

/-- The exact-enumeration score claimed by the specification: the sum of
`p^|S| (1-p)^(n-|S|)` over the induced subgraphs in which the argument is
credulously accepted. -/
def exactScore (finder : AF → List (Finset Nat)) (af : AF) (p : ℚ) (a : Nat) :
    ℚ :=
  ∑ S ∈ af.argsF.powerset,
    if a ∈ credOfSubgraph finder (subAFMem af S) then
      p ^ S.card * (1 - p) ^ (af.args.length - S.card)
    else 0

/-- One pass of `ProbGrounded._find_extensions_in_subgraph`: the arguments newly accepted
from `accepted_args` — not yet accepted, and with every attacker
counter-attacked by the accepted set (unattacked arguments vacuously so). -/
def charStep (af : AF) (acc : Finset Nat) : Finset Nat :=
  af.argsF.filter
    (fun a => a ∉ acc ∧ ∀ b ∈ af.argsF, af.attacks b a → ∃ d ∈ acc, af.attacks d b)

/-- The `while True` fixpoint loop of `ProbGrounded`: stop as soon as the
newly accepted set adds nothing. -/
def groundedLoop (af : AF) : Nat → Finset Nat → Finset Nat
  | 0, acc => acc
  | fuel + 1, acc =>
    if charStep af acc ⊆ acc then acc
    else groundedLoop af fuel (acc ∪ charStep af acc)

/-- Embedding of `ProbGrounded._find_extensions_in_subgraph`: empty input gives `[]`, and
an empty fixpoint gives `[]` rather than `[frozenset()]`. -/
def probGroundedFind (af : AF) : List (Finset Nat) :=
  if af.args = [] then []
  else
    if groundedLoop af (af.args.length + 1) ∅ = ∅ then []
    else [groundedLoop af (af.args.length + 1) ∅]

/-- The characteristic function of the grounded semantics from the
specification: `F(S) = { a : every attacker of a is attacked by some s ∈ S }`.
Its least fixed point (the grounded extension) is empty exactly when
`F(∅) = ∅`, i.e. when no argument is unattacked, since `F` is monotone. -/
def groundedCharF (af : AF) (S : Finset Nat) : Finset Nat :=
  af.argsF.filter
    (fun a => ∀ b ∈ af.argsF, af.attacks b a → ∃ d ∈ S, af.attacks d b)

theorem charStep_empty_eq (af : AF) : charStep af ∅ = groundedCharF af ∅ := by
  unfold charStep groundedCharF
  apply Finset.filter_congr
  intro a _
  simp

/-- Claim C10 — when the grounded extension of a subgraph is empty
(equivalently, `F(∅) = ∅`: no argument is unattacked), the grounded finder
returns the empty list of extensions, not `[∅]`, and consequently the sample
counts no argument as credulously accepted. -/
theorem prob_grounded_empty_extension (af : AF) (hwf : af.WF)
    (hempty : groundedCharF af ∅ = ∅) :
    probGroundedFind af = [] ∧ credOfSubgraph probGroundedFind af = ∅ := by
  have hcs : charStep af ∅ = ∅ := by rw [charStep_empty_eq, hempty]
  have hloop : groundedLoop af (af.args.length + 1) ∅ = ∅ := by
    unfold groundedLoop
    rw [if_pos]
    rw [hcs]
  have hfind : probGroundedFind af = [] := by
    unfold probGroundedFind
    rw [hloop]
    simp
  refine ⟨hfind, ?_⟩
  unfold credOfSubgraph
  split
  · rfl
  · rw [hfind]; rfl

/-- Witness for `prob_grounded_empty_extension` on the single self-attacking
argument `1 → 1`. -/
theorem prob_grounded_empty_extension_witness :
    (AF.mk [1] [(1, 1)]).WF ∧ groundedCharF (AF.mk [1] [(1, 1)]) ∅ = ∅ ∧
    (probGroundedFind (AF.mk [1] [(1, 1)]) = [] ∧
      credOfSubgraph probGroundedFind (AF.mk [1] [(1, 1)]) = ∅) :=
  ⟨by decide, by decide,
    prob_grounded_empty_extension (AF.mk [1] [(1, 1)]) (by decide) (by decide)⟩

theorem countLoop_eq (credf : Nat → Finset Nat) (members : List Nat) :
    ∀ (l : List Nat) (c0 : Nat → Nat) (a : Nat),
      (l.foldl
        (fun c i => fun x => if x ∈ credf i ∧ x ∈ members then c x + 1 else c x)
        c0) a
      = c0 a + l.countP (fun i => decide (a ∈ credf i ∧ a ∈ members)) := by
  intro l
  induction l with
  | nil => intro c0 a; simp
  | cons i rest ih =>
    intro c0 a
    rw [List.foldl_cons, ih]
    rw [List.countP_cons]
    by_cases h : a ∈ credf i ∧ a ∈ members
    · simp [h]
      omega
    · simp [h]

/-- Counterexample to claim C3 — on the one-argument framework with `n = 1`
and the sample budget `N = 10` (so `2^n < N`), the score computed by
`_calculate_scores` under p-Grounded at `p = 1/2` is the empirical frequency
of the 10 Monte-Carlo samples (here `1`, with a random stream that always
includes the argument), not the exact subgraph-enumeration sum (here `1/2`):
the code has no exact-enumeration dispatch at all. -/
theorem prob_scores_not_exact_enumeration :
    2 ^ (AF.mk [1] []).args.length < 10 ∧
    probScores probGroundedFind (AF.mk [1] []) (1 / 2) (fun _ _ => 0)
      (fun _ => []) false 10 1 = 1 ∧
    exactScore probGroundedFind (AF.mk [1] []) (1 / 2) 1 = 1 / 2 ∧
    probScores probGroundedFind (AF.mk [1] []) (1 / 2) (fun _ _ => 0)
      (fun _ => []) false 10 1 ≠
      exactScore probGroundedFind (AF.mk [1] []) (1 / 2) 1 := by
  have hb : ∀ i, bernoulliNodes (AF.mk [1] []) (1 / 2) (fun _ _ => 0) i = [1] := by
    intro i
    have hp : ((0:ℚ) < 1 / 2) := by norm_num
    unfold bernoulliNodes
    simp [hp]
  have hs : ∀ i, mcSampleNodes (AF.mk [1] []) (1 / 2) (fun _ _ => 0)
      (fun _ => []) false i = bernoulliNodes (AF.mk [1] []) (1 / 2)
      (fun _ _ => 0) i := by
    intro i
    have hu : useFixedHeuristic (AF.mk [1] []) false = false := by decide
    unfold mcSampleNodes
    rw [hu]
    simp
  have hcred : ∀ i, credOfSample probGroundedFind (AF.mk [1] []) (1 / 2)
      (fun _ _ => 0) (fun _ => []) false i = {1} := by
    intro i
    unfold credOfSample
    rw [hs i, hb i]
    decide
  have hscore : probScores probGroundedFind (AF.mk [1] []) (1 / 2)
      (fun _ _ => 0) (fun _ => []) false 10 1 = 1 := by
    unfold probScores mcCounts
    rw [countLoop_eq]
    have hfun : (fun i => decide (1 ∈ credOfSample probGroundedFind
        (AF.mk [1] []) (1 / 2) (fun _ _ => 0) (fun _ => []) false i ∧
          1 ∈ (AF.mk [1] []).args)) = fun _ => true := by
      funext i
      rw [hcred i]
      decide
    rw [hfun]
    rw [List.countP_true, List.length_range]
    norm_num
  have hpow : (AF.mk [1] []).argsF.powerset = {∅, {1}} := by decide
  have hexact : exactScore probGroundedFind (AF.mk [1] []) (1 / 2) 1 = 1 / 2 := by
    unfold exactScore
    rw [hpow]
    rw [Finset.sum_insert (by decide)]
    rw [Finset.sum_singleton]
    have h1 : ¬ (1 ∈ credOfSubgraph probGroundedFind
        (subAFMem (AF.mk [1] []) ∅)) := by decide
    have h2 : (1 ∈ credOfSubgraph probGroundedFind
        (subAFMem (AF.mk [1] []) {1})) := by decide
    rw [if_neg h1, if_pos h2]
    norm_num
  refine ⟨by decide, hscore, hexact, ?_⟩
  rw [hscore, hexact]
  norm_num

/-- Claim C3 (amended) — for every probabilistic semantics, every sample
budget and every random stream, the score `_calculate_scores` computes for an
argument is exactly the fraction of the `N` Monte-Carlo samples in which that
argument is credulously accepted; no exact-enumeration path exists, whatever
the relation between `2^n` and `N`. -/
theorem prob_scores_are_sample_frequencies (finder : AF → List (Finset Nat))
    (af : AF) (p : ℚ) (draws : Nat → Nat → ℚ) (heur : Nat → List Nat)
    (notGroundedClass : Bool) (numSamples : Nat) (a : Nat) (ha : a ∈ af.args) :
    probScores finder af p draws heur notGroundedClass numSamples a =
      (((List.range numSamples).countP
          (fun i => decide
            (a ∈ credOfSample finder af p draws heur notGroundedClass i)) : ℚ) /
        (numSamples : ℚ)) := by
  unfold probScores mcCounts
  rw [countLoop_eq]
  have hc : (List.range numSamples).countP
      (fun i => decide
        (a ∈ credOfSample finder af p draws heur notGroundedClass i ∧
          a ∈ af.args)) =
    (List.range numSamples).countP
      (fun i => decide
        (a ∈ credOfSample finder af p draws heur notGroundedClass i)) := by
    apply List.countP_congr
    intro i _
    by_cases h : a ∈ credOfSample finder af p draws heur notGroundedClass i
    · simp [h, ha]
    · simp [h]
  rw [hc]
  norm_num

/-- Witness for `prob_scores_are_sample_frequencies` on the chain `1 → 2`
with three samples. -/
theorem prob_scores_are_sample_frequencies_witness :
    2 ∈ (AF.mk [1, 2] [(1, 2)]).args ∧
    probScores probGroundedFind (AF.mk [1, 2] [(1, 2)]) (1 / 2) (fun _ _ => 0)
      (fun _ => []) false 3 2 =
      (((List.range 3).countP
          (fun i => decide
            (2 ∈ credOfSample probGroundedFind (AF.mk [1, 2] [(1, 2)]) (1 / 2)
              (fun _ _ => 0) (fun _ => []) false i)) : ℚ) / (3 : ℚ)) :=
  ⟨by decide,
    prob_scores_are_sample_frequencies probGroundedFind (AF.mk [1, 2] [(1, 2)])
      (1 / 2) (fun _ _ => 0) (fun _ => []) false 3 2 (by decide)⟩

/-! ## Analytical p-Stable (`semantics/prob/prob_stable.py`) -/

/-- The out-degree `self.af.out_degree(arg_a)`: the number of attack edges leaving `a`. -/
def outDegree (af : AF) (a : Nat) : Nat :=
  (af.atts.filter (fun e => decide (e.1 = a))).length

/-- Embedding of `ProbStable._calculate_scores` for one argument: `-inf` for a
self-attacker, else
`log p + ((n - 1) - out_degree(a)) * log (1 - p)` (log-domain). -/
noncomputable def probStableScore (af : AF) (p : ℝ) (a : Nat) : EReal :=
  if af.attacks a a then ⊥
  else
    ((Real.log p +
      ((((af.args.length : ℤ) - 1 - (outDegree af a : ℤ)) : ℝ) *
        Real.log (1 - p)) : ℝ) : EReal)

theorem outDegree_le (af : AF) (hwf : af.WF) (a : Nat) (ha : a ∈ af.args)
    (hself : ¬ af.attacks a a) : outDegree af a ≤ af.args.length - 1 := by
  obtain ⟨hnodupA, hnodupR, hclosed⟩ := hwf
  set l := af.atts.filter (fun e => decide (e.1 = a)) with hl
  have hlnodup : l.Nodup := hnodupR.filter _
  have hsnd : (l.map Prod.snd).Nodup := by
    apply hlnodup.map_on
    intro e he f hf hef
    have he1 : e.1 = a := by
      have := (List.mem_filter.mp he).2
      exact of_decide_eq_true this
    have hf1 : f.1 = a := by
      have := (List.mem_filter.mp hf).2
      exact of_decide_eq_true this
    exact Prod.ext (he1.trans hf1.symm) hef
  have hsub : ∀ x ∈ l.map Prod.snd, x ∈ af.argsF.erase a := by
    intro x hx
    rcases List.mem_map.mp hx with ⟨e, he, rfl⟩
    have hmem : e ∈ af.atts := (List.mem_filter.mp he).1
    have he1 : e.1 = a := of_decide_eq_true (List.mem_filter.mp he).2
    refine Finset.mem_erase.mpr ⟨?_, ?_⟩
    · intro hx
      apply hself
      have h3 : e = (a, a) := Prod.ext he1 hx
      show (a, a) ∈ af.atts
      rw [← h3]
      exact hmem
    · exact List.mem_toFinset.mpr (hclosed e hmem).2
  have hcard : (l.map Prod.snd).length ≤ (af.argsF.erase a).card := by
    have h1 : (l.map Prod.snd).toFinset.card = (l.map Prod.snd).length :=
      List.toFinset_card_of_nodup hsnd
    have h2 : (l.map Prod.snd).toFinset ⊆ af.argsF.erase a := by
      intro x hx
      exact hsub x (List.mem_toFinset.mp hx)
    calc (l.map Prod.snd).length = (l.map Prod.snd).toFinset.card := h1.symm
      _ ≤ (af.argsF.erase a).card := Finset.card_le_card h2
  have hargscard : af.argsF.card = af.args.length :=
    List.toFinset_card_of_nodup hnodupA
  have herase : (af.argsF.erase a).card = af.argsF.card - 1 :=
    Finset.card_erase_of_mem (List.mem_toFinset.mpr ha)
  have : outDegree af a = (l.map Prod.snd).length := by
    unfold outDegree
    rw [List.length_map]
  omega

/-- Claim C6 — for every well-formed AF and `p ∈ (0, 1)`, the analytical
p-Stable score is `-inf` exactly for the self-attackers, and every other
argument receives `log p + ((n - 1) - out_degree(a)) * log (1 - p)`, which is
strictly negative. -/
theorem prob_stable_score_shape (af : AF) (p : ℝ) (hwf : af.WF)
    (hp0 : 0 < p) (hp1 : p < 1) :
    ∀ a ∈ af.args,
      (probStableScore af p a = ⊥ ↔ af.attacks a a) ∧
      (¬ af.attacks a a →
        probStableScore af p a =
          ((Real.log p +
            ((((af.args.length : ℤ) - 1 - (outDegree af a : ℤ)) : ℝ) *
              Real.log (1 - p)) : ℝ) : EReal) ∧
        Real.log p +
          ((((af.args.length : ℤ) - 1 - (outDegree af a : ℤ)) : ℝ) *
            Real.log (1 - p)) < 0) := by
  intro a ha
  have hlogp : Real.log p < 0 := Real.log_neg hp0 hp1
  constructor
  · constructor
    · intro hbot
      by_contra hself
      unfold probStableScore at hbot
      rw [if_neg hself] at hbot
      exact EReal.coe_ne_bot _ hbot
    · intro hself
      unfold probStableScore
      rw [if_pos hself]
  · intro hself
    have heq : probStableScore af p a =
        ((Real.log p +
          ((((af.args.length : ℤ) - 1 - (outDegree af a : ℤ)) : ℝ) *
            Real.log (1 - p)) : ℝ) : EReal) := by
      unfold probStableScore
      rw [if_neg hself]
    refine ⟨heq, ?_⟩
    have hdeg : outDegree af a ≤ af.args.length - 1 :=
      outDegree_le af hwf a ha hself
    have hn : 1 ≤ af.args.length := List.length_pos_of_mem ha
    have hz : (0:ℝ) ≤ (((af.args.length : ℤ) - 1 - (outDegree af a : ℤ)) : ℝ) := by
      have : (0:ℤ) ≤ (af.args.length : ℤ) - 1 - (outDegree af a : ℤ) := by
        omega
      exact_mod_cast this
    have hlog1p : Real.log (1 - p) < 0 := by
      apply Real.log_neg
      · linarith
      · linarith
    have hmul : (((af.args.length : ℤ) - 1 - (outDegree af a : ℤ)) : ℝ) *
        Real.log (1 - p) ≤ 0 := by
      have h := mul_nonneg hz (neg_nonneg.mpr (le_of_lt hlog1p))
      have h2 : (((af.args.length : ℤ) - 1 - (outDegree af a : ℤ)) : ℝ) *
          -Real.log (1 - p) =
          -((((af.args.length : ℤ) - 1 - (outDegree af a : ℤ)) : ℝ) *
            Real.log (1 - p)) := by ring
      linarith [h2 ▸ h]
    linarith

/-- Witness for `prob_stable_score_shape` at `p = 1/2` on the framework
`1 → 1`, `1 → 2`, instantiated at the non-self-attacking argument `2`. -/
theorem prob_stable_score_shape_witness :
    (AF.mk [1, 2] [(1, 1), (1, 2)]).WF ∧ ((0:ℝ) < 1 / 2) ∧ ((1:ℝ) / 2 < 1) ∧
    (2 ∈ (AF.mk [1, 2] [(1, 1), (1, 2)]).args) ∧
    ¬ (AF.mk [1, 2] [(1, 1), (1, 2)]).attacks 2 2 ∧
    (probStableScore (AF.mk [1, 2] [(1, 1), (1, 2)]) (1 / 2) 2 = ⊥ ↔
      (AF.mk [1, 2] [(1, 1), (1, 2)]).attacks 2 2) ∧
    probStableScore (AF.mk [1, 2] [(1, 1), (1, 2)]) (1 / 2) 2 =
      ((Real.log (1 / 2) +
        ((((((AF.mk [1, 2] [(1, 1), (1, 2)]).args.length : ℤ) - 1 -
          (outDegree (AF.mk [1, 2] [(1, 1), (1, 2)]) 2 : ℤ)) : ℝ)) *
          Real.log (1 - 1 / 2)) : ℝ) : EReal) ∧
    Real.log (1 / 2) +
      ((((((AF.mk [1, 2] [(1, 1), (1, 2)]).args.length : ℤ) - 1 -
        (outDegree (AF.mk [1, 2] [(1, 1), (1, 2)]) 2 : ℤ)) : ℝ)) *
        Real.log (1 - 1 / 2)) < 0 :=
  ⟨by decide, by norm_num, by norm_num, by decide, by decide,
    (prob_stable_score_shape (AF.mk [1, 2] [(1, 1), (1, 2)]) (1 / 2) (by decide)
      (by norm_num) (by norm_num) 2 (by decide)).1,
    ((prob_stable_score_shape (AF.mk [1, 2] [(1, 1), (1, 2)]) (1 / 2) (by decide)
      (by norm_num) (by norm_num) 2 (by decide)).2 (by decide)).1,
    ((prob_stable_score_shape (AF.mk [1, 2] [(1, 1), (1, 2)]) (1 / 2) (by decide)
      (by norm_num) (by norm_num) 2 (by decide)).2 (by decide)).2⟩

/-! ## Dung-style extension predicates (specification layer)

These predicates spell out §4.6 and the glossary of the specification over
the embedded graphs; the extension finders below are checked against them.
`defendsP` quantifies attackers over the node set, which on well-formed
graphs (all edge endpoints are nodes) coincides with `graph.predecessors`. -/

/-- Some member of `S` attacks `b`. -/
def setAttacks (af : AF) (S : Finset Nat) (b : Nat) : Prop :=
  ∃ s ∈ S, af.attacks s b

instance (af : AF) (S : Finset Nat) (b : Nat) : Decidable (setAttacks af S b) := by
  unfold setAttacks; infer_instance

/-- Defence: `S` defends `a` when every attacker of `a` is counter-attacked by `S`
(the loop of `ProbabilisticSemantics._defends`). -/
def defendsP (af : AF) (S : Finset Nat) (a : Nat) : Prop :=
  ∀ b ∈ af.argsF, af.attacks b a → setAttacks af S b

instance (af : AF) (S : Finset Nat) (a : Nat) : Decidable (defendsP af S a) := by
  unfold defendsP; infer_instance

/-- Conflict-freeness of `S`. -/
def conflictFreeP (af : AF) (S : Finset Nat) : Prop :=
  ∀ a ∈ S, ∀ b ∈ S, ¬ af.attacks a b

instance (af : AF) (S : Finset Nat) : Decidable (conflictFreeP af S) := by
  unfold conflictFreeP; infer_instance

/-- Admissibility: a conflict-free set of nodes defending each member. -/
def admissibleP (af : AF) (S : Finset Nat) : Prop :=
  S ⊆ af.argsF ∧ conflictFreeP af S ∧ ∀ a ∈ S, defendsP af S a

instance (af : AF) (S : Finset Nat) : Decidable (admissibleP af S) := by
  unfold admissibleP; infer_instance

/-- Completeness: an admissible set containing every argument it
defends. -/
def completeP (af : AF) (S : Finset Nat) : Prop :=
  admissibleP af S ∧ ∀ a ∈ af.argsF, defendsP af S a → a ∈ S

instance (af : AF) (S : Finset Nat) : Decidable (completeP af S) := by
  unfold completeP; infer_instance

theorem setAttacks_mono (af : AF) {S T : Finset Nat} (h : S ⊆ T) {b : Nat}
    (hb : setAttacks af S b) : setAttacks af T b := by
  obtain ⟨s, hs, hatt⟩ := hb
  exact ⟨s, h hs, hatt⟩

theorem defendsP_mono (af : AF) {S T : Finset Nat} (h : S ⊆ T) {a : Nat}
    (ha : defendsP af S a) : defendsP af T a := by
  intro b hb hatt
  exact setAttacks_mono af h (ha b hb hatt)

/-- Dung's fundamental lemma: adjoining a defended argument to an admissible
set keeps it admissible. -/
theorem admissible_insert (af : AF) {S : Finset Nat} (hS : admissibleP af S)
    {a : Nat} (ha : a ∈ af.argsF) (hd : defendsP af S a) :
    admissibleP af (insert a S) := by
  obtain ⟨hsub, hcf, hdef⟩ := hS
  have h0 : ∀ s ∈ S, ¬ af.attacks s a := by
    intro s hs hatt
    obtain ⟨t, ht, htatt⟩ := hd s (hsub hs) hatt
    exact hcf t ht s hs htatt
  have h1 : ∀ s ∈ S, ¬ af.attacks a s := by
    intro s hs hatt
    obtain ⟨t, ht, htatt⟩ := hdef s hs a ha hatt
    exact h0 t ht htatt
  have h2 : ¬ af.attacks a a := by
    intro hatt
    obtain ⟨t, ht, htatt⟩ := hd a ha hatt
    exact h0 t ht htatt
  refine ⟨Finset.insert_subset ha hsub, ?_, ?_⟩
  · intro x hx y hy hatt
    rcases Finset.mem_insert.mp hx with hxa | hxS
    · rcases Finset.mem_insert.mp hy with hya | hyS
      · rw [hxa, hya] at hatt
        exact h2 hatt
      · rw [hxa] at hatt
        exact h1 y hyS hatt
    · rcases Finset.mem_insert.mp hy with hya | hyS
      · rw [hya] at hatt
        exact h0 x hxS hatt
      · exact hcf x hxS y hyS hatt
  · intro x hx
    rcases Finset.mem_insert.mp hx with rfl | hx
    · exact defendsP_mono af (Finset.subset_insert x S) hd
    · exact defendsP_mono af (Finset.subset_insert a S) (hdef x hx)

/-- Every admissible set extends to a maximal admissible set (finiteness). -/
theorem exists_max_admissible (af : AF) {T : Finset Nat}
    (hT : admissibleP af T) :
    ∃ M, admissibleP af M ∧ T ⊆ M ∧
      ∀ Y, admissibleP af Y → M ⊆ Y → M = Y := by
  have hne : (af.argsF.powerset.filter
      (fun X => T ⊆ X ∧ admissibleP af X)).Nonempty := by
    refine ⟨T, ?_⟩
    rw [Finset.mem_filter, Finset.mem_powerset]
    exact ⟨hT.1, Finset.Subset.refl T, hT⟩
  obtain ⟨M, hM, hmax⟩ := Finset.exists_maximal _ hne
  rw [Finset.mem_filter, Finset.mem_powerset] at hM
  refine ⟨M, hM.2.2, hM.2.1, ?_⟩
  intro Y hY hMY
  by_contra hne2
  apply hmax Y
  · rw [Finset.mem_filter, Finset.mem_powerset]
    exact ⟨hY.1, hM.2.1.trans hMY, hY⟩
  · exact lt_of_le_of_ne hMY hne2

/-- A maximal admissible set is a complete extension. -/
theorem maxAdm_complete (af : AF) {S : Finset Nat} (hS : admissibleP af S)
    (hmax : ∀ Y, admissibleP af Y → S ⊆ Y → S = Y) : completeP af S := by
  refine ⟨hS, ?_⟩
  intro a ha hd
  have hins : admissibleP af (insert a S) := admissible_insert af hS ha hd
  have heq : S = insert a S := hmax _ hins (Finset.subset_insert a S)
  rw [heq]
  exact Finset.mem_insert_self a S

/-- Maximal admissible sets and maximal complete extensions coincide. -/
theorem maxAdm_iff_maxComplete (af : AF) (S : Finset Nat) :
    (admissibleP af S ∧ ∀ Y, admissibleP af Y → S ⊆ Y → S = Y) ↔
    (completeP af S ∧ ∀ Y, completeP af Y → S ⊆ Y → S = Y) := by
  constructor
  · intro ⟨hadm, hmax⟩
    refine ⟨maxAdm_complete af hadm hmax, ?_⟩
    intro Y hY hSY
    exact hmax Y hY.1 hSY
  · intro ⟨hcomp, hmax⟩
    refine ⟨hcomp.1, ?_⟩
    intro Y hY hSY
    obtain ⟨M, hMadm, hYM, hMmax⟩ := exists_max_admissible af hY
    have hMcomp : completeP af M := maxAdm_complete af hMadm hMmax
    have hSM : S = M := hmax M hMcomp (hSY.trans hYM)
    apply Finset.Subset.antisymm hSY
    rw [hSM]
    exact hYM

/-! ## p-Ideal — the CDIS procedure (`semantics/prob/prob_ideal.py`) -/

/-- All subsets of a node list, as finite sets (deterministic enumeration). -/
def subsetsL : List Nat → List (Finset Nat)
  | [] => [(∅ : Finset Nat)]
  | a :: rest => subsetsL rest ++ (subsetsL rest).map (insert a)

/-- The complete extensions of a subgraph, enumerated as a list. -/
def completeExtensionsL (sub : AF) : List (Finset Nat) :=
  (subsetsL sub.args).filter (fun S => decide (completeP sub S))

/-- Modelled from the spec: `ProbIdeal._find_admissible_attacker_of` calls
`self._get_complete_encoding`, which is absent from the sources.  Per §4.6 of
the specification the query is SAT over the complete-labelling encoding plus
a clause that at least one attacker of some `p ∈ P` is IN, the returned set
being the IN-labelled arguments of the model; so the call returns some
complete extension of the subgraph containing an attacker of a member of
`P`, or nothing when none exists (`if not candidate_set_P: return None` is
the guard for an empty `P`). -/
def findAdmissibleAttacker (sub : AF) (P : Finset Nat) : Option (Finset Nat) :=
  if P = ∅ then none
  else (completeExtensionsL sub).find?
    (fun S => decide (∃ p ∈ P, ∃ s ∈ S, sub.attacks s p))

/-- Phase 1 of `ProbIdeal._find_extensions_in_subgraph`: repeatedly remove
from `P` everything attacked by a found attacker set. -/
def cdisPhase1 (sub : AF) : Nat → Finset Nat → Finset Nat
  | 0, P => P
  | fuel + 1, P =>
    match findAdmissibleAttacker sub P with
    | none => P
    | some S =>
      cdisPhase1 sub fuel
        (P \ sub.argsF.filter (fun x => ∃ s ∈ S, sub.attacks s x))

/-- Phase 2 of `ProbIdeal._find_extensions_in_subgraph`: on the induced
subgraph, repeatedly drop the nodes having some attacker (within the current
node set) that no current node counter-attacks. -/
def cdisPhase2 (sub : AF) : Nat → Finset Nat → Finset Nat
  | 0, Q => Q
  | fuel + 1, Q =>
    if Q.filter
        (fun q => ¬ ∀ att ∈ Q, sub.attacks att q → ∃ d ∈ Q, sub.attacks d att)
        = ∅
    then Q
    else cdisPhase2 sub fuel
      (Q \ Q.filter
        (fun q => ¬ ∀ att ∈ Q, sub.attacks att q → ∃ d ∈ Q, sub.attacks d att))

/-- Embedding of `ProbIdeal._find_extensions_in_subgraph`: empty subgraphs yield the empty
extension, otherwise phase 1 then phase 2. -/
def probIdealFind (sub : AF) : List (Finset Nat) :=
  if sub.args = [] then [(∅ : Finset Nat)]
  else
    [cdisPhase2 sub (sub.args.length + 1)
      (cdisPhase1 sub (sub.args.length + 1) sub.argsF)]

/-- Claim C2 (evaluation at the failing input) — on the three-cycle
`1 → 2 → 3 → 1` the p-Ideal finder returns `[{1, 2, 3}]`, although that set
is not even conflict-free, hence not admissible: phase 2 never checks
conflict-freeness.  The only preferred extension here is `∅`, so the ideal
extension is `∅`, yet the returned set is the whole node set. -/
theorem prob_ideal_returns_non_admissible :
    probIdealFind (AF.mk [1, 2, 3] [(1, 2), (2, 3), (3, 1)]) =
      [({1, 2, 3} : Finset Nat)] ∧
    ¬ conflictFreeP (AF.mk [1, 2, 3] [(1, 2), (2, 3), (3, 1)]) {1, 2, 3} ∧
    ¬ admissibleP (AF.mk [1, 2, 3] [(1, 2), (2, 3), (3, 1)]) {1, 2, 3} ∧
    completeP (AF.mk [1, 2, 3] [(1, 2), (2, 3), (3, 1)]) ∅ := by
  decide

/-! ## p-Preferred — backtracking search (`semantics/prob/prob_preferred.py`) -/

/-- The conflict test of `find_and_check` before adding `new_node`: an attack
in either direction between the new node and some present member.  (The new
node is never tested against itself, so self-attacks slip through.) -/
def conflictedWith (sub : AF) (n : Nat) (cand : Finset Nat) : Prop :=
  ∃ e ∈ cand, sub.attacks n e ∨ sub.attacks e n

instance (sub : AF) (n : Nat) (cand : Finset Nat) :
    Decidable (conflictedWith sub n cand) := by
  unfold conflictedWith; infer_instance

/-- The admissibility check of `find_and_check`: every member is defended
(conflict-freeness is assumed by construction and not re-checked). -/
def defendsAllB (sub : AF) (cand : Finset Nat) : Prop :=
  ∀ a ∈ cand, defendsP sub cand a

instance (sub : AF) (cand : Finset Nat) : Decidable (defendsAllB sub cand) := by
  unfold defendsAllB; infer_instance

/-- The exploration loop of `find_and_check` over the remaining node list:
for each node, if compatible with the candidate, collect the extended
candidate when it passes the check and recurse on the tail. -/
def facScan (sub : AF) : Finset Nat → List Nat → List (Finset Nat)
  | _, [] => []
  | cand, n :: rest =>
    (if conflictedWith sub n cand then []
     else
       (if defendsAllB sub (insert n cand) then [insert n cand] else []) ++
         facScan sub (insert n cand) rest) ++
    facScan sub cand rest

/-- Embedding of `ProbPreferred._find_admissible_recursively`: start from the empty
candidate (collected first — it always passes the check) and scan the node
list. -/
def admissibleFound (sub : AF) : List (Finset Nat) :=
  (if defendsAllB sub ∅ then [(∅ : Finset Nat)] else []) ++
    facScan sub ∅ sub.args

/-- Embedding of `ProbPreferred._find_extensions_in_subgraph`: keep the collected sets
that are ⊆-maximal among the collected sets; the final fallback branch
returns `[∅]` when nothing is maximal but `∅` was collected. -/
def probPreferredFind (sub : AF) : List (Finset Nat) :=
  if (admissibleFound sub).filter
      (fun s1 => decide (∀ s2 ∈ admissibleFound sub, s1 ⊆ s2 → s1 = s2)) = []
      ∧ (∅ : Finset Nat) ∈ admissibleFound sub
  then [(∅ : Finset Nat)]
  else
    (admissibleFound sub).filter
      (fun s1 => decide (∀ s2 ∈ admissibleFound sub, s1 ⊆ s2 → s1 = s2))

/-- The pairwise compatibility invariant maintained by the scan: every
explored node is attack-free (in both directions) against every other
member of the candidate. -/
def pairOk (sub : AF) (cand T : Finset Nat) : Prop :=
  ∀ t ∈ T, ∀ e ∈ cand ∪ T, e ≠ t → ¬ sub.attacks t e ∧ ¬ sub.attacks e t

/-- Conflict-freeness restricted to pairs of distinct arguments (what the
incremental conflict test actually enforces). -/
def dpcfP (sub : AF) (S : Finset Nat) : Prop :=
  ∀ a ∈ S, ∀ b ∈ S, a ≠ b → ¬ sub.attacks a b

theorem union_singleton_eq_insert (cand : Finset Nat) (n : Nat) :
    cand ∪ {n} = insert n cand := by
  ext x
  simp only [Finset.mem_union, Finset.mem_singleton, Finset.mem_insert]
  tauto

theorem pairOk_insert (sub : AF) (n : Nat) (cand T0 : Finset Nat)
    (hn : n ∉ cand) :
    pairOk sub cand (insert n T0) ↔
      ¬ conflictedWith sub n cand ∧ pairOk sub (insert n cand) T0 := by
  have hsets : cand ∪ insert n T0 = insert n cand ∪ T0 := by
    ext x
    simp only [Finset.mem_union, Finset.mem_insert]
    tauto
  constructor
  · intro h
    constructor
    · rintro ⟨e, he, hatt⟩
      have hne : e ≠ n := fun hx => hn (hx ▸ he)
      have := h n (Finset.mem_insert_self n T0) e
        (Finset.mem_union_left _ he) hne
      rcases hatt with h1 | h1
      · exact this.1 h1
      · exact this.2 h1
    · intro t ht e he hne
      have ht2 : t ∈ insert n T0 := Finset.mem_insert_of_mem ht
      have he2 : e ∈ cand ∪ insert n T0 := by rw [hsets]; exact he
      exact h t ht2 e he2 hne
  · rintro ⟨hconf, hok⟩ t ht e he hne
    rcases Finset.mem_insert.mp ht with rfl | htT0
    · have heT : e ∈ cand ∨ e ∈ T0 := by
        rcases Finset.mem_union.mp he with h1 | h1
        · exact Or.inl h1
        · rcases Finset.mem_insert.mp h1 with h2 | h2
          · exact absurd h2 hne
          · exact Or.inr h2
      rcases heT with h1 | h1
      · constructor
        · intro hatt; exact hconf ⟨e, h1, Or.inl hatt⟩
        · intro hatt; exact hconf ⟨e, h1, Or.inr hatt⟩
      · have := hok e h1 t (Finset.mem_union_left _ (Finset.mem_insert_self t cand))
          (Ne.symm hne)
        exact ⟨this.2, this.1⟩
    · have he2 : e ∈ insert n cand ∪ T0 := by rw [← hsets]; exact he
      exact hok t htT0 e he2 hne

theorem pairOk_empty_iff (sub : AF) (T : Finset Nat) :
    pairOk sub ∅ T ↔ dpcfP sub T := by
  constructor
  · intro h a ha b hb hne
    exact (h a ha b (by rw [Finset.empty_union]; exact hb) (Ne.symm hne)).1
  · intro h t ht e he hne
    have heT : e ∈ T := by rwa [Finset.empty_union] at he
    exact ⟨h t ht e heT (Ne.symm hne), h e heT t ht hne⟩

set_option maxHeartbeats 1600000 in
/-- Characterisation of the sets collected by the scan: exactly the
extensions of the candidate by a non-empty compatible subset of the
remaining nodes that passes the defendedness check. -/
theorem mem_facScan (sub : AF) :
    ∀ (rem : List Nat) (cand : Finset Nat), rem.Nodup →
      (∀ x ∈ rem, x ∉ cand) →
      ∀ S, S ∈ facScan sub cand rem ↔
        ∃ T : Finset Nat, (∀ x ∈ T, x ∈ rem) ∧ T.Nonempty ∧ S = cand ∪ T ∧
          pairOk sub cand T ∧ defendsAllB sub (cand ∪ T) := by
  intro rem
  induction rem with
  | nil =>
    intro cand _ _ S
    constructor
    · intro h
      simp [facScan] at h
    · rintro ⟨T, hTsub, ⟨x, hx⟩, -, -, -⟩
      exact absurd (hTsub x hx) (List.not_mem_nil x)
  | cons n rest ih =>
    intro cand hnodup hdisj S
    have hnodupR : rest.Nodup := hnodup.of_cons
    have hnotin : n ∉ rest := (List.nodup_cons.mp hnodup).1
    have hncand : n ∉ cand := hdisj n (List.mem_cons_self n rest)
    have hdisjR : ∀ x ∈ rest, x ∉ cand :=
      fun x hx => hdisj x (List.mem_cons_of_mem n hx)
    have hdisjR2 : ∀ x ∈ rest, x ∉ insert n cand := by
      intro x hx
      rw [Finset.mem_insert]
      push_neg
      exact ⟨fun hxn => hnotin (hxn ▸ hx), hdisjR x hx⟩
    have hunfold : facScan sub cand (n :: rest) =
        (if conflictedWith sub n cand then []
         else
           (if defendsAllB sub (insert n cand) then [insert n cand] else []) ++
             facScan sub (insert n cand) rest) ++
        facScan sub cand rest := rfl
    by_cases hconf : conflictedWith sub n cand
    · rw [hunfold, if_pos hconf, List.nil_append]
      rw [ih cand hnodupR hdisjR S]
      constructor
      · rintro ⟨T, hTsub, hTne, hS, hok, hda⟩
        exact ⟨T, fun x hx => List.mem_cons_of_mem n (hTsub x hx), hTne, hS,
          hok, hda⟩
      · rintro ⟨T, hTsub, hTne, hS, hok, hda⟩
        by_cases hnT : n ∈ T
        · exfalso
          obtain ⟨e, he, hatt⟩ := hconf
          have hne : e ≠ n := fun hx => hncand (hx ▸ he)
          have := hok n hnT e (Finset.mem_union_left _ he) hne
          rcases hatt with h1 | h1
          · exact this.1 h1
          · exact this.2 h1
        · refine ⟨T, ?_, hTne, hS, hok, hda⟩
          intro x hx
          rcases List.mem_cons.mp (hTsub x hx) with h1 | h1
          · exact absurd (h1 ▸ hx) hnT
          · exact h1
    · rw [hunfold, if_neg hconf]
      have hmem : S ∈ ((if defendsAllB sub (insert n cand) then [insert n cand]
            else []) ++ facScan sub (insert n cand) rest) ++
            facScan sub cand rest ↔
          (defendsAllB sub (insert n cand) ∧ S = insert n cand) ∨
            S ∈ facScan sub (insert n cand) rest ∨
            S ∈ facScan sub cand rest := by
        rw [List.mem_append, List.mem_append]
        constructor
        · rintro ((h1 | h1) | h1)
          · split at h1
            · rename_i hda
              rw [List.mem_singleton] at h1
              exact Or.inl ⟨hda, h1⟩
            · exact absurd h1 (List.not_mem_nil S)
          · exact Or.inr (Or.inl h1)
          · exact Or.inr (Or.inr h1)
        · rintro (⟨hda, rfl⟩ | h1 | h1)
          · left
            left
            rw [if_pos hda]
            exact List.mem_singleton.mpr rfl
          · left
            right
            exact h1
          · right
            exact h1
      rw [hmem]
      rw [ih (insert n cand) hnodupR hdisjR2 S, ih cand hnodupR hdisjR S]
      constructor
      · rintro (⟨hda, rfl⟩ | ⟨T0, hT0sub, hT0ne, hS, hok0, hda0⟩ |
          ⟨T, hTsub, hTne, hS, hok, hda⟩)
        · refine ⟨{n}, ?_, ⟨n, Finset.mem_singleton_self n⟩, ?_, ?_, ?_⟩
          · intro x hx
            rw [Finset.mem_singleton] at hx
            exact hx ▸ List.mem_cons_self n rest
          · rw [union_singleton_eq_insert]
          · rw [show ({n} : Finset Nat) = insert n ∅ from rfl,
              pairOk_insert sub n cand ∅ hncand]
            refine ⟨hconf, ?_⟩
            intro t ht
            exact absurd ht (Finset.not_mem_empty t)
          · rw [union_singleton_eq_insert]
            exact hda
        · refine ⟨insert n T0, ?_, ⟨n, Finset.mem_insert_self n T0⟩, ?_, ?_, ?_⟩
          · intro x hx
            rcases Finset.mem_insert.mp hx with rfl | h2
            · exact List.mem_cons_self x rest
            · exact List.mem_cons_of_mem n (hT0sub x h2)
          · rw [hS]
            ext x
            simp only [Finset.mem_union, Finset.mem_insert]
            tauto
          · rw [pairOk_insert sub n cand T0 hncand]
            exact ⟨hconf, hok0⟩
          · have : cand ∪ insert n T0 = insert n cand ∪ T0 := by
              ext x
              simp only [Finset.mem_union, Finset.mem_insert]
              tauto
            rw [this]
            exact hda0
        · exact ⟨T, fun x hx => List.mem_cons_of_mem n (hTsub x hx), hTne, hS,
            hok, hda⟩
      · rintro ⟨T, hTsub, hTne, hS, hok, hda⟩
        by_cases hnT : n ∈ T
        · have hTsplit : T = insert n (T.erase n) :=
            (Finset.insert_erase hnT).symm
          by_cases hT0 : T.erase n = ∅
          · have hTn : T = {n} := by
              rw [hTsplit, hT0]
              rfl
            left
            rw [hTn, union_singleton_eq_insert] at hS hda
            exact ⟨hda, hS⟩
          · right; left
            have hEq : insert n cand ∪ T.erase n = cand ∪ T := by
              ext x
              simp only [Finset.mem_union, Finset.mem_insert, Finset.mem_erase]
              constructor
              · rintro ((h | h) | ⟨h1, h2⟩)
                · exact Or.inr (h ▸ hnT)
                · exact Or.inl h
                · exact Or.inr h2
              · rintro (h | h)
                · exact Or.inl (Or.inr h)
                · by_cases hx : x = n
                  · exact Or.inl (Or.inl hx)
                  · exact Or.inr ⟨hx, h⟩
            refine ⟨T.erase n, ?_, Finset.nonempty_iff_ne_empty.mpr hT0, ?_, ?_, ?_⟩
            · intro x hx
              have hxT : x ∈ T := Finset.mem_of_mem_erase hx
              have hxn : x ≠ n := Finset.ne_of_mem_erase hx
              rcases List.mem_cons.mp (hTsub x hxT) with h1 | h1
              · exact absurd h1 hxn
              · exact h1
            · rw [hEq]
              exact hS
            · have := (pairOk_insert sub n cand (T.erase n) hncand).mp
                (hTsplit ▸ hok)
              exact this.2
            · rw [hEq]
              exact hda
        · right; right
          refine ⟨T, ?_, hTne, hS, hok, hda⟩
          intro x hx
          rcases List.mem_cons.mp (hTsub x hx) with h1 | h1
          · exact absurd (h1 ▸ hx) hnT
          · exact h1

/-- What `_find_admissible_recursively` collects: the subsets of the node
set that are conflict-free on distinct pairs and defend all their members. -/
theorem mem_admissibleFound (sub : AF) (hwf : sub.WF) (S : Finset Nat) :
    S ∈ admissibleFound sub ↔
      S ⊆ sub.argsF ∧ dpcfP sub S ∧ defendsAllB sub S := by
  have hda0 : defendsAllB sub ∅ := by
    intro a ha
    exact absurd ha (Finset.not_mem_empty a)
  unfold admissibleFound
  rw [if_pos hda0, List.mem_append, List.mem_singleton]
  rw [mem_facScan sub sub.args ∅ hwf.1 (fun x _ => Finset.not_mem_empty x) S]
  constructor
  · rintro (rfl | ⟨T, hTsub, -, rfl, hok, hda⟩)
    · refine ⟨Finset.empty_subset _, ?_, hda0⟩
      intro a ha
      exact absurd ha (Finset.not_mem_empty a)
    · rw [Finset.empty_union] at hda
      rw [Finset.empty_union]
      refine ⟨?_, ?_, hda⟩
      · intro x hx
        exact List.mem_toFinset.mpr (hTsub x hx)
      · exact (pairOk_empty_iff sub T).mp hok
  · rintro ⟨hsub, hdp, hda⟩
    by_cases hS : S = ∅
    · exact Or.inl hS
    · right
      refine ⟨S, ?_, Finset.nonempty_iff_ne_empty.mpr hS, ?_, ?_, ?_⟩
      · intro x hx
        exact List.mem_toFinset.mp (hsub hx)
      · rw [Finset.empty_union]
      · exact (pairOk_empty_iff sub S).mpr hdp
      · rw [Finset.empty_union]
        exact hda

theorem dpcfP_iff_conflictFree (sub : AF)
    (hsl : ∀ a ∈ sub.args, ¬ sub.attacks a a) (S : Finset Nat)
    (hsub : S ⊆ sub.argsF) : dpcfP sub S ↔ conflictFreeP sub S := by
  constructor
  · intro h a ha b hb hatt
    by_cases hab : a = b
    · exact hsl a (List.mem_toFinset.mp (hsub ha)) (hab ▸ hatt)
    · exact h a ha b hb hab hatt
  · intro h a ha b hb _ hatt
    exact h a ha b hb hatt

/-- On self-loop-free subgraphs the collected sets are exactly the
admissible sets. -/
theorem mem_admissibleFound_iff_admissible (sub : AF) (hwf : sub.WF)
    (hsl : ∀ a ∈ sub.args, ¬ sub.attacks a a) (S : Finset Nat) :
    S ∈ admissibleFound sub ↔ admissibleP sub S := by
  rw [mem_admissibleFound sub hwf S]
  unfold admissibleP
  constructor
  · rintro ⟨h1, h2, h3⟩
    exact ⟨h1, (dpcfP_iff_conflictFree sub hsl S h1).mp h2, h3⟩
  · rintro ⟨h1, h2, h3⟩
    exact ⟨h1, (dpcfP_iff_conflictFree sub hsl S h1).mpr h2, h3⟩

theorem admissibleP_empty (sub : AF) : admissibleP sub (∅ : Finset Nat) := by
  refine ⟨Finset.empty_subset _, ?_, ?_⟩
  · intro a ha
    exact absurd ha (Finset.not_mem_empty a)
  · intro a ha
    exact absurd ha (Finset.not_mem_empty a)

/-- Claim C5 (amended) — on every well-formed subgraph without
self-attacking arguments, `ProbPreferred._find_extensions_in_subgraph`
returns exactly the ⊆-maximal complete extensions.  (A self-attacker breaks
the enumeration: the incremental conflict test never compares a node with
itself.) -/
theorem prob_preferred_max_complete (sub : AF) (hwf : sub.WF)
    (hsl : ∀ a ∈ sub.args, ¬ sub.attacks a a) (E : Finset Nat) :
    E ∈ probPreferredFind sub ↔
      (completeP sub E ∧ ∀ Y, completeP sub Y → E ⊆ Y → E = Y) := by
  have hadm : ∀ S, S ∈ admissibleFound sub ↔ admissibleP sub S :=
    fun S => mem_admissibleFound_iff_admissible sub hwf hsl S
  have hfilter : ∀ S, S ∈ (admissibleFound sub).filter
      (fun s1 => decide (∀ s2 ∈ admissibleFound sub, s1 ⊆ s2 → s1 = s2)) ↔
      (admissibleP sub S ∧ ∀ Y, admissibleP sub Y → S ⊆ Y → S = Y) := by
    intro S
    rw [List.mem_filter, decide_eq_true_eq]
    constructor
    · rintro ⟨h1, h2⟩
      refine ⟨(hadm S).mp h1, ?_⟩
      intro Y hY hSY
      exact h2 Y ((hadm Y).mpr hY) hSY
    · rintro ⟨h1, h2⟩
      refine ⟨(hadm S).mpr h1, ?_⟩
      intro Y hY hSY
      exact h2 Y ((hadm Y).mp hY) hSY
  have hne : (admissibleFound sub).filter
      (fun s1 => decide (∀ s2 ∈ admissibleFound sub, s1 ⊆ s2 → s1 = s2)) ≠ [] := by
    obtain ⟨M, hM, -, hMmax⟩ :=
      exists_max_admissible sub (admissibleP_empty sub)
    exact List.ne_nil_of_mem ((hfilter M).mpr ⟨hM, hMmax⟩)
  unfold probPreferredFind
  rw [if_neg (fun hand => hne hand.1)]
  rw [hfilter E]
  exact maxAdm_iff_maxComplete sub E

/-- Witness for `prob_preferred_max_complete` on the chain `1 → 2` at
`E = {1}`. -/
theorem prob_preferred_max_complete_witness :
    (AF.mk [1, 2] [(1, 2)]).WF ∧
    (∀ a ∈ (AF.mk [1, 2] [(1, 2)]).args, ¬ (AF.mk [1, 2] [(1, 2)]).attacks a a) ∧
    (({1} : Finset Nat) ∈ probPreferredFind (AF.mk [1, 2] [(1, 2)]) ↔
      (completeP (AF.mk [1, 2] [(1, 2)]) {1} ∧
        ∀ Y, completeP (AF.mk [1, 2] [(1, 2)]) Y → ({1} : Finset Nat) ⊆ Y →
          ({1} : Finset Nat) = Y)) :=
  ⟨by decide, by decide,
    prob_preferred_max_complete (AF.mk [1, 2] [(1, 2)]) (by decide) (by decide)
      {1}⟩

/-- Counterexample to claim C5 as stated — on the single self-attacking
argument `1 → 1` the finder returns `[{1}]`, but `{1}` is not conflict-free,
hence not complete; the set of ⊆-maximal complete extensions there is
`{∅}`. -/
theorem prob_preferred_self_loop_counterexample :
    probPreferredFind (AF.mk [1] [(1, 1)]) = [({1} : Finset Nat)] ∧
    ¬ completeP (AF.mk [1] [(1, 1)]) {1} ∧
    ¬ admissibleP (AF.mk [1] [(1, 1)]) {1} ∧
    completeP (AF.mk [1] [(1, 1)]) ∅ := by
  decide

/-! ## Ser — serialisation-based semantics (`semantics/ser.py`) -/

/-- An initial set: non-empty, admissible, with no non-empty proper
admissible subset. -/
def isInitialSet (sub : AF) (S : Finset Nat) : Prop :=
  S.Nonempty ∧ admissibleP sub S ∧
    ∀ T ∈ S.powerset, T.Nonempty → T ≠ S → ¬ admissibleP sub T

instance (sub : AF) (S : Finset Nat) : Decidable (isInitialSet sub S) := by
  unfold isInitialSet; infer_instance

/-- Model of `Ser._find_initial_sets_sat`: the SAT enumeration loop returns exactly
the initial sets of the graph (each model is kept only if no non-empty
proper admissible subset is satisfiable, and every initial set is found
before the final UNSAT); the solver-dependent enumeration order is modelled
by the fixed `subsetsL` order. -/
def initialSetsL (sub : AF) : List (Finset Nat) :=
  (subsetsL sub.args).filter (fun S => decide (isInitialSet sub S))

/-- Default `max_recursion_depth` of `Ser.__init__`. -/
def serMaxDepth : Nat := 15

/-- The reduct node set `nodes_for_reduct = original_arguments - accepted_set -
attacked_by_accepted`. -/
def serReduct (af : AF) (accepted : Finset Nat) : Finset Nat :=
  (af.argsF \ accepted) \
    af.argsF.filter (fun x => ∃ s ∈ accepted, af.attacks s x)

mutual

/-- Embedding of `Ser._explore_sequences_pruned`: stop past the depth bound or when no
argument of the reduct can improve; otherwise recurse through the reduct's
initial sets.  The fuel only bounds the recursion depth; the `step` check
fires first on every run reachable from the entry points below. -/
def serExplore (af : AF) (fuel : Nat) (accepted : Finset Nat) (step : Nat)
    (idx : Nat → ℕ∞) : Nat → ℕ∞ :=
  match fuel with
  | 0 => idx
  | f + 1 =>
    if step > serMaxDepth then idx
    else if ¬ ∃ a ∈ serReduct af accepted, (step : ℕ∞) < idx a then idx
    else
      serExploreSets af f
        (initialSetsL (subAFMem af (serReduct af accepted))) accepted step idx
  termination_by (fuel, 0)

/-- The `for s_i in initial_sets` loop of `_explore_sequences_pruned`:
lower the indices of the members of each initial set to `step`, then recurse
with the enlarged accepted set at `step + 1`. -/
def serExploreSets (af : AF) (fuel : Nat) (l : List (Finset Nat))
    (accepted : Finset Nat) (step : Nat) (idx : Nat → ℕ∞) : Nat → ℕ∞ :=
  match l with
  | [] => idx
  | s :: rest =>
    serExploreSets af fuel rest accepted step
      (serExplore af fuel (accepted ∪ s) (step + 1)
        (fun a => if a ∈ s then min (idx a) (step : ℕ∞) else idx a))
  termination_by (fuel, l.length + 1)

end

/-- The index assignment after step 1 of
`Ser._calculate_ranking_hybrid_pruned`: `1` on members of some initial set,
`inf` elsewhere. -/
def serIndicesInit (inits : List (Finset Nat)) : Nat → ℕ∞ :=
  fun a => if ∃ S ∈ inits, a ∈ S then (1 : ℕ∞) else ⊤

/-- The `for s_i in initial_sets_step1` loop: explore from each initial set
at step 2. -/
def serIndicesLoop (af : AF) : List (Finset Nat) → (Nat → ℕ∞) → (Nat → ℕ∞)
  | [], idx => idx
  | s :: rest, idx =>
    serIndicesLoop af rest (serExplore af serMaxDepth s 2 idx)

/-- The serialisation indices `Ser` computes; when the AF has no initial
set, `_calculate_ranking_hybrid_pruned` returns at once and every index
stays `inf`. -/
def serIndices (af : AF) : Nat → ℕ∞ :=
  if initialSetsL af = [] then fun _ => ⊤
  else serIndicesLoop af (initialSetsL af) (serIndicesInit (initialSetsL af))

/-! ## Ranking construction (C1 across the solvers) -/

/-- The consecutive-grouping loop shared by `Cat._build_ranking` and
`Dbs._calculate_all` (and, through `itertools.groupby`, by `Ser`): walk the
sorted argument list, continuing the current class while the predicate
relates the previous and the current argument. -/
def gcAux {α : Type} (p : α → α → Bool) (g : List α) (prev : α) :
    List α → List (List α)
  | [] => [g.reverse]
  | b :: rest =>
    if p prev b then gcAux p (b :: g) b rest
    else g.reverse :: gcAux p [b] b rest

/-- Group a sorted list into consecutive equivalence classes. -/
def groupConsecutive {α : Type} (p : α → α → Bool) : List α → List (List α)
  | [] => []
  | a :: rest => gcAux p [a] a rest

theorem gcAux_flatten {α : Type} (p : α → α → Bool) :
    ∀ (l : List α) (g : List α) (prev : α),
      (gcAux p g prev l).flatten = g.reverse ++ l := by
  intro l
  induction l with
  | nil =>
    intro g prev
    simp [gcAux]
  | cons b rest ih =>
    intro g prev
    unfold gcAux
    split
    · rw [ih]
      simp
    · rw [List.flatten_cons, ih]
      simp

theorem groupConsecutive_flatten {α : Type} (p : α → α → Bool) (l : List α) :
    (groupConsecutive p l).flatten = l := by
  cases l with
  | nil => rfl
  | cons a rest =>
    unfold groupConsecutive
    rw [gcAux_flatten]
    rfl

/-- Embedding of `Cat._build_ranking`: sort descending by strength, then group
consecutive arguments whose strengths differ by less than the tolerance. -/
def catRankingClasses (af : AF) : List (List Nat) :=
  if af.args = [] then []
  else
    groupConsecutive
      (fun prev curr =>
        decide (|catStrengths af curr - catStrengths af prev| < catTol))
      (af.args.mergeSort
        (fun a b => decide (catStrengths af b ≤ catStrengths af a)))

/-- The discussion vector of an argument, located through its position in
the node list (as `Dbs.arg_to_index` does). -/
def dbsVecOf (af : AF) (L : Nat) (a : Nat) : List ℤ :=
  if h : af.args.indexOf a < af.args.length then
    dbsVector af L ⟨af.args.indexOf a, h⟩
  else []

/-- Python list comparison on discussion vectors (lexicographic). -/
def listLe : List ℤ → List ℤ → Bool
  | [], _ => true
  | _ :: _, [] => false
  | x :: xs, y :: ys =>
    if x < y then true else if y < x then false else listLe xs ys

/-- Embedding of `Dbs._calculate_all`: sort ascending by vector, group equal vectors. -/
def dbsRankingClasses (af : AF) (L : Nat) : List (List Nat) :=
  if af.args = [] then []
  else
    groupConsecutive
      (fun prev curr => decide (dbsVecOf af L curr = dbsVecOf af L prev))
      (af.args.mergeSort (fun a b => listLe (dbsVecOf af L a) (dbsVecOf af L b)))

/-- Embedding of `Ser._calculate_ranking_hybrid_pruned`: empty ranking when there is no
initial set; otherwise sort by serialisation index and group equal indices.
(The source breaks ties inside a class by the string form of the argument;
the classes are unaffected.) -/
def serRankingClasses (af : AF) : List (List Nat) :=
  if initialSetsL af = [] then []
  else
    groupConsecutive
      (fun prev curr => decide (serIndices af curr = serIndices af prev))
      (af.args.mergeSort (fun a b => decide (serIndices af a ≤ serIndices af b)))

/-- The group-allocation loop of `ProbabilisticSemantics.get_ranking`: put
the argument into the first group whose key is within `1e-9` of its score,
else open a new group at the end. -/
def probGroupInsert : List (ℚ × List Nat) → ℚ → Nat → List (ℚ × List Nat)
  | [], s, a => [(s, [a])]
  | (k, g) :: rest, s, a =>
    if |s - k| < 1 / 10 ^ 9 then (k, g ++ [a]) :: rest
    else (k, g) :: probGroupInsert rest s a

/-- Fold the allocation loop over the score map in node order (Python
dictionaries iterate in insertion order). -/
def probGroups (args : List Nat) (score : Nat → ℚ) : List (ℚ × List Nat) :=
  args.foldl (fun acc a => probGroupInsert acc (score a) a) []

/-- Embedding of `get_ranking`: the groups ordered by descending key. -/
def probRankingClasses (args : List Nat) (score : Nat → ℚ) : List (List Nat) :=
  (((probGroups args score).mergeSort (fun x y => decide (y.1 ≤ x.1))).map
    Prod.snd)

theorem grouped_sort_flatten_perm (p : Nat → Nat → Bool) (r : Nat → Nat → Bool)
    (l : List Nat) :
    List.Perm (groupConsecutive p (l.mergeSort r)).flatten l := by
  rw [groupConsecutive_flatten]
  exact List.mergeSort_perm l r

theorem probGroupInsert_flatten (s : ℚ) (a : Nat) :
    ∀ acc : List (ℚ × List Nat),
      List.Perm ((probGroupInsert acc s a).map Prod.snd).flatten
        (a :: (acc.map Prod.snd).flatten) := by
  intro acc
  induction acc with
  | nil =>
    simp [probGroupInsert]
  | cons kg rest ih =>
    obtain ⟨k, g⟩ := kg
    unfold probGroupInsert
    split
    · simp only [List.map_cons, List.flatten_cons]
      rw [List.append_assoc]
      exact List.perm_middle
    · simp only [List.map_cons, List.flatten_cons]
      have h1 : List.Perm (g ++ ((probGroupInsert rest s a).map Prod.snd).flatten)
          (g ++ a :: (rest.map Prod.snd).flatten) := ih.append_left g
      exact h1.trans List.perm_middle

theorem probGroups_fold_flatten (score : Nat → ℚ) :
    ∀ (l : List Nat) (acc : List (ℚ × List Nat)),
      List.Perm
        ((l.foldl (fun acc2 a => probGroupInsert acc2 (score a) a) acc).map
          Prod.snd).flatten
        ((acc.map Prod.snd).flatten ++ l) := by
  intro l
  induction l with
  | nil =>
    intro acc
    simp
  | cons a rest ih =>
    intro acc
    rw [List.foldl_cons]
    have h1 := ih (probGroupInsert acc (score a) a)
    have h2 : List.Perm
        (((probGroupInsert acc (score a) a).map Prod.snd).flatten ++ rest)
        ((acc.map Prod.snd).flatten ++ a :: rest) := by
      have h3 := (probGroupInsert_flatten (score a) a acc).append_right rest
      refine h3.trans ?_
      exact (List.perm_middle).symm
    exact h1.trans h2

theorem probRankingClasses_flatten_perm (args : List Nat) (score : Nat → ℚ) :
    List.Perm (probRankingClasses args score).flatten args := by
  unfold probRankingClasses
  have h1 : List.Perm
      ((probGroups args score).mergeSort (fun x y => decide (y.1 ≤ x.1)))
      (probGroups args score) := List.mergeSort_perm _ _
  have h2 := (h1.map Prod.snd).flatten
  refine h2.trans ?_
  have h3 := probGroups_fold_flatten score args []
  simpa [probGroups] using h3

/-- Counterexample to claim C1 as stated — on the single self-attacking
argument `1 → 1` the `Ser` solver finds no initial set and returns the empty
ranking: argument `1` appears in no equivalence class, so the ranking does
not partition the argument set. -/
theorem ser_ranking_not_partition :
    serRankingClasses (AF.mk [1] [(1, 1)]) = [] ∧
    ¬ List.Perm (serRankingClasses (AF.mk [1] [(1, 1)])).flatten
        (AF.mk [1] [(1, 1)]).args := by
  have h : initialSetsL (AF.mk [1] [(1, 1)]) = [] := by decide
  constructor
  · unfold serRankingClasses
    rw [if_pos h]
  · unfold serRankingClasses
    rw [if_pos h]
    intro hperm
    simpa using hperm.length_eq

/-- Claim C1 (amended) — for every well-formed AF: the Cat ranking, the Dbs
ranking (any path-length bound), and the probabilistic ranking built from
any score map each partition the argument set (their classes concatenate to
a permutation of the node list, so no argument is missing or duplicated);
the Ser ranking partitions the argument set whenever at least one initial
set exists, and is empty otherwise. -/
theorem rankings_partition_arguments (af : AF) (hwf : af.WF) :
    List.Perm (catRankingClasses af).flatten af.args ∧
    (∀ L, List.Perm (dbsRankingClasses af L).flatten af.args) ∧
    (∀ score : Nat → ℚ,
      List.Perm (probRankingClasses af.args score).flatten af.args) ∧
    (initialSetsL af ≠ [] →
      List.Perm (serRankingClasses af).flatten af.args) ∧
    (initialSetsL af = [] → serRankingClasses af = []) := by
  refine ⟨?_, ?_, ?_, ?_, ?_⟩
  · unfold catRankingClasses
    split
    · rename_i h
      rw [h]
      rfl
    · exact grouped_sort_flatten_perm _ _ af.args
  · intro L
    unfold dbsRankingClasses
    split
    · rename_i h
      rw [h]
      rfl
    · exact grouped_sort_flatten_perm _ _ af.args
  · intro score
    exact probRankingClasses_flatten_perm af.args score
  · intro hne
    unfold serRankingClasses
    rw [if_neg hne]
    exact grouped_sort_flatten_perm _ _ af.args
  · intro h
    unfold serRankingClasses
    rw [if_pos h]

/-- Witness for `rankings_partition_arguments` on the chain `1 → 2`. -/
theorem rankings_partition_arguments_witness :
    (AF.mk [1, 2] [(1, 2)]).WF ∧
    (List.Perm (catRankingClasses (AF.mk [1, 2] [(1, 2)])).flatten
        (AF.mk [1, 2] [(1, 2)]).args ∧
      (∀ L, List.Perm (dbsRankingClasses (AF.mk [1, 2] [(1, 2)]) L).flatten
        (AF.mk [1, 2] [(1, 2)]).args) ∧
      (∀ score : Nat → ℚ,
        List.Perm
          (probRankingClasses (AF.mk [1, 2] [(1, 2)]).args score).flatten
          (AF.mk [1, 2] [(1, 2)]).args) ∧
      (initialSetsL (AF.mk [1, 2] [(1, 2)]) ≠ [] →
        List.Perm (serRankingClasses (AF.mk [1, 2] [(1, 2)])).flatten
          (AF.mk [1, 2] [(1, 2)]).args) ∧
      (initialSetsL (AF.mk [1, 2] [(1, 2)]) = [] →
        serRankingClasses (AF.mk [1, 2] [(1, 2)]) = [])) :=
  ⟨by decide, rankings_partition_arguments (AF.mk [1, 2] [(1, 2)]) (by decide)⟩
